import Mathlib

/-!
Verification of the stock-report extraction pipeline
(`extract_pdf.py`, `db_utils.py`) against its specification.

Texts are modelled as `List Char`.  Python exceptions are modelled as
explicit `CallResult` values; the remote Bedrock endpoint, the PDF parser
and the interactive terminal are modelled as oracles passed in as
parameters.  JSON serialization is modelled as the identity on the
in-memory record: a checkpoint write stores the current chunk list, and
re-reading the file yields the most recent write.
-/

namespace StockReport

/-- Whitespace test modelling Python `str.strip()` / `str.isspace()` for the
ASCII whitespace characters (the only ones relevant to the texts in play). -/
def isWS (c : Char) : Bool :=
  c = ' ' || c = '\t' || c = '\n' || c = '\r' || c = '\x0b' || c = '\x0c'

/-- Python `s.strip()`: drop whitespace from both ends. -/
def strip (l : List Char) : List Char :=
  ((l.dropWhile isWS).reverse.dropWhile isWS).reverse

/-- Python slice `s[a:b]` for `0 ≤ a`, `0 ≤ b` (clamped at the ends). -/
def slice (l : List Char) (a b : Nat) : List Char :=
  (l.take b).drop a

/-- Does `pat` occur in `l` starting at index `i` (with room for all of it)? -/
def matchAt (l pat : List Char) (i : Nat) : Bool :=
  decide ((l.drop i).take pat.length = pat)

/-- Scan candidate start positions `a + k - 1, …, a` from high to low. -/
def rfindGo (l pat : List Char) (a : Nat) : Nat → Option Nat
  | 0 => none
  | k + 1 => if matchAt l pat (a + k) then some (a + k) else rfindGo l pat a k

/-- Python `s.rfind(pat, a, b)`: the largest `i` with `a ≤ i`,
`i + pat.length ≤ min b s.length` and a match at `i`; `none` models `-1`. -/
def rfind (l pat : List Char) (a b : Nat) : Option Nat :=
  rfindGo l pat a (min b l.length + 1 - pat.length - a)

/-- Python `pat in s` (substring containment). -/
def containsSub (l pat : List Char) : Bool :=
  (rfind l pat 0 l.length).isSome

/-- The `metadata` dictionary attached to every chunk. -/
structure ChunkMeta where
  pages : List Int
  source_page : Int
deriving DecidableEq

/-- A chunk as built by `chunk_text`: a text and its page provenance. -/
structure Chunk where
  text : List Char
  metadata : ChunkMeta
deriving DecidableEq

/-- One element of the `extracted_pages` list.  Both dictionary keys are
optional because `chunk_text` reads them with `dict.get` defaults. -/
structure PageRec where
  text : Option (List Char)
  page_number : Option Int
deriving DecidableEq

/-- The sentence separators searched by `chunk_text`, in source order. -/
def seps : List (List Char) :=
  [". ".toList, "! ".toList, "? ".toList, ".\n".toList, "!\n".toList, "?\n".toList]

/-- The paragraph separator `"\n\n"`. -/
def parBreak : List Char := ['\n', '\n']

/-- The `for sep in [...]` fold computing `sentence_break` in `chunk_text`:
`sb = none` models the `-1` sentinel; a found position `pos` replaces the
accumulator when the accumulator is `-1` or `pos > sentence_break`, storing
`pos + len(sep)`. -/
def sentenceFold (text : List Char) (a b : Nat) : List (List Char) → Option Nat → Option Nat
  | [], sb => sb
  | sep :: rest, sb =>
      sentenceFold text a b rest
        (match rfind text sep a b with
         | none => sb
         | some pos =>
             match sb with
             | none => some (pos + sep.length)
             | some s => if s < pos then some (pos + sep.length) else sb)

/-- The boundary adjustment of one window of the splitting loop
(`end = min(start + chunk_size, len)` followed by the paragraph-break and
sentence-break searches over `[search_start, end)`).
`chunk_size / 5` models `int(chunk_size * 0.2)`; the two agree at the
code's default `chunk_size = 1000` (where the float product is exactly
`200.0`), and Nat subtraction models the clamping of `search_start`. -/
def adjustEnd (text : List Char) (cs : Nat) (start : Nat) : Nat :=
  let e := min (start + cs) text.length
  let ss := e - cs / 5
  let sentEnd :=
    match sentenceFold text ss e seps none with
    | some sb => if start < sb then sb else e
    | none => e
  match rfind text parBreak ss e with
  | some p => if start < p then p + 2 else sentEnd
  | none => sentEnd

/-- The loop advance `start = max(start + 1, end - chunk_overlap)`. -/
def nextStart (text : List Char) (cs ov start : Nat) : Nat :=
  max (start + 1) (adjustEnd text cs start - ov)

/-- The `while start < len(text)` splitting loop of `chunk_text`.
`fuel` is an upper bound on the number of iterations; the loop is run with
`fuel = text.length`, which suffices because `start` strictly increases. -/
def splitGo (text : List Char) (cs ov : Nat) (pn : Int) : Nat → Nat → List Chunk
  | 0, _ => []
  | fuel + 1, start =>
    if start < text.length then
      (let piece := strip (slice text start (adjustEnd text cs start))
       if piece = [] then [] else [⟨piece, ⟨[pn], pn⟩⟩]) ++
      splitGo text cs ov pn fuel (nextStart text cs ov start)
    else []

/-- The sequence of windows `(start, adjusted end)` carved by the splitting
loop; `splitGo` emits exactly the non-empty trimmed slices of these. -/
def splitWindowsGo (text : List Char) (cs ov : Nat) : Nat → Nat → List (Nat × Nat)
  | 0, _ => []
  | fuel + 1, start =>
    if start < text.length then
      (start, adjustEnd text cs start) ::
        splitWindowsGo text cs ov fuel (nextStart text cs ov start)
    else []

/-- The body of `chunk_text` for one `(i, page_data)` pair of the
`enumerate` loop: read the fields with their `dict.get` defaults, skip
whitespace-only pages, keep short pages whole, split long pages. -/
def chunkPage (cs ov : Nat) (i : Nat) (p : PageRec) : List Chunk :=
  let text := p.text.getD []
  let pn : Int := p.page_number.getD ((i : Int) + 1)
  if strip text = [] then []
  else if text.length ≤ cs then [⟨text, ⟨[pn], pn⟩⟩]
  else splitGo text cs ov pn text.length 0

/-- The `for i, page_data in enumerate(extracted_pages)` loop, carrying the
running index. -/
def chunkPages (cs ov : Nat) : Nat → List PageRec → List Chunk
  | _, [] => []
  | i, p :: rest => chunkPage cs ov i p ++ chunkPages cs ov (i + 1) rest

/-- `chunk_text(extracted_pages, chunk_size, chunk_overlap)`. -/
def chunk_text (pages : List PageRec) (cs ov : Nat) : List Chunk :=
  chunkPages cs ov 0 pages

/-- Outcome of one Python call that may raise: `ok` a value or `err` the
exception's string form. -/
inductive CallResult (α : Type) where
  | ok (a : α)
  | err (e : List Char)
deriving DecidableEq

/-- Did the call return normally? -/
def CallResult.isOk {α : Type} : CallResult α → Bool
  | .ok _ => true
  | .err _ => false

/-- Outcome of `summarize_with_claude`: a returned summary, a raised
exception, or the (unreachable for `max_retries ≥ 1`) implicit `None`
return when the `for` loop body never runs. -/
inductive SumOutcome where
  | returned (s : List Char)
  | raised (e : List Char)
  | fellThrough
deriving DecidableEq

/-- `"ThrottlingException" in str(e)`. -/
def isThrottling (e : List Char) : Bool :=
  containsSub e "ThrottlingException".toList

/-- The `for attempt in range(max_retries)` retry loop of
`summarize_with_claude`.  `oracle n` is the outcome of the Bedrock call on
(0-based) attempt `n`; the second component of the result collects the
backoff sleep durations in order. -/
def summarizeGo (oracle : Nat → CallResult (List Char)) (maxRetries : Nat) :
    Nat → Nat → SumOutcome × List Nat
  | _, 0 => (SumOutcome.fellThrough, [])
  | attempt, remaining + 1 =>
    match oracle attempt with
    | .ok s => (SumOutcome.returned s, [])
    | .err e =>
      if isThrottling e && decide (attempt < maxRetries - 1) then
        let r := summarizeGo oracle maxRetries (attempt + 1) remaining
        (r.1, 2 ^ (attempt + 2) :: r.2)
      else (SumOutcome.raised e, [])

/-- `summarize_with_claude(chunk_text, max_retries)` as a function of the
per-attempt call oracle. -/
def summarize_with_claude (oracle : Nat → CallResult (List Char))
    (maxRetries : Nat) : SumOutcome × List Nat :=
  summarizeGo oracle maxRetries 0 maxRetries

/-- A chunk dictionary as held in `result_data["chunks"]`: the chunk plus
its (initially absent) `summary` key. -/
structure RChunk where
  chunk : Chunk
  summary : Option (List Char)
deriving DecidableEq

/-- The orchestrator's mutable state: the chunk list of `result_data`, the
`successful_chunks` counter, and the sequence of checkpoint snapshots
written so far (most recent last). -/
structure OrchState where
  chunks : List RChunk
  successful : Nat
  writes : List (List RChunk)
deriving DecidableEq

/-- `f"Error: {str(e)}"`. -/
def errStr (e : List Char) : List Char := "Error: ".toList ++ e

/-- The summary string a chunk ends up with, by call outcome. -/
def summaryOf : CallResult (List Char) → List Char
  | .ok s => s
  | .err e => errStr e

/-- Set the `summary` key of the `i`-th chunk dictionary. -/
def setSummary : List RChunk → Nat → List Char → List RChunk
  | [], _, _ => []
  | c :: t, 0, s => { c with summary := some s } :: t
  | c :: t, i + 1, s => c :: setSummary t i s

/-- `save_partial_results(data, output_filename)`: append a snapshot of the
full record to the write sequence (the file afterwards holds `data`). -/
def save_partial_results (data : List RChunk) (writes : List (List RChunk)) :
    List (List RChunk) :=
  writes ++ [data]

/-- One iteration of the orchestrator's chunk loop, chunk index `i`:
on success set the summary, bump the counter and write a checkpoint; on
any exception set the summary to `"Error: " + str(e)` and continue
(no checkpoint write on this path). -/
def stepChunk (summ : Nat → CallResult (List Char)) (st : OrchState) (i : Nat) :
    OrchState :=
  match summ i with
  | .ok s =>
      let chunks2 := setSummary st.chunks i s
      { chunks := chunks2
        successful := st.successful + 1
        writes := save_partial_results chunks2 st.writes }
  | .err e =>
      { st with chunks := setSummary st.chunks i (errStr e) }

/-- The whole `for i, chunk in enumerate(text_chunks)` loop of
`process_stock_report`, starting from the freshly-built record (note: no
checkpoint write precedes the loop in the source). -/
def processAll (summ : Nat → CallResult (List Char)) (chunks0 : List RChunk) :
    OrchState :=
  (List.range chunks0.length).foldl (stepChunk summ) ⟨chunks0, 0, []⟩

/-- `extract_pdf(pdf_path)` as a function of the PDF-parsing oracle: on
success, per-page records carrying both keys with 1-based page numbers; on
any exception the handler prints and the function returns the empty list. -/
def extract_pdf (docResult : CallResult (List (List Char))) : List PageRec :=
  match docResult with
  | .ok texts => texts.enum.map (fun it => ⟨some it.2, some ((it.1 : Int) + 1)⟩)
  | .err _ => []

/-- The chunk list of the freshly initialized `result_data` (summaries
absent), using the source's default `chunk_size=1000, chunk_overlap=200`. -/
def initRecord (docResult : CallResult (List (List Char))) : List RChunk :=
  (chunk_text (extract_pdf docResult) 1000 200).map (fun c => ⟨c, none⟩)

/-- What `process_stock_report` yields when it returns normally. -/
structure Outcome where
  successful : Nat
  record : List RChunk
  file : List RChunk
deriving DecidableEq

/-- Normal return or a propagated exception. -/
inductive RunResult where
  | ok (o : Outcome)
  | raises (e : List Char)
deriving DecidableEq

/-- The exception raised by `open(output_filename, 'r')` when no checkpoint
was ever written. -/
def fnfMsg : List Char := "FileNotFoundError".toList

/-- `process_stock_report(pdf_path)`: extract, chunk, run the summarization
loop, then re-open and verify the persisted file.  The re-read yields the
most recent checkpoint write; if no write ever happened the `open` raises. -/
def process_stock_report (docResult : CallResult (List (List Char)))
    (summ : Nat → CallResult (List Char)) : RunResult :=
  let chunks0 := initRecord docResult
  let st := processAll summ chunks0
  match st.writes.getLast? with
  | some fileData => .ok ⟨st.successful, st.chunks, fileData⟩
  | none => .raises fnfMsg

/-- Number of indices below `n` whose summarization call succeeds. -/
def countOk (summ : Nat → CallResult (List Char)) (n : Nat) : Nat :=
  ((List.range n).filter (fun i => (summ i).isOk)).length

/-- Python `s.lower()` (ASCII). -/
def toLowerChars (s : List Char) : List Char := s.map Char.toLower

/-- Observable behaviour of `clear_database`: whether the interactive
prompt was shown, whether the table was dropped, whether the operation was
cancelled at the prompt. -/
structure ClearResult where
  prompted : Bool
  dropped : Bool
  cancelled : Bool
deriving DecidableEq

/-- `clear_database(db_path, confirm)` as a function of whether the
`stock_chunks` table exists and of the interactive answer: with
`confirm=True` it prompts and proceeds only on an answer whose lower-case
form is exactly `"y"`; the table is dropped only if it exists. -/
def clear_database (tableExists : Bool) (confirm : Bool) (answer : List Char) :
    ClearResult :=
  if confirm then
    if toLowerChars answer ≠ ['y'] then ⟨true, false, true⟩
    else ⟨true, tableExists, false⟩
  else ⟨false, tableExists, false⟩

/-- What a `db_utils.py` invocation does. -/
inductive CliAction where
  | usageExit
  | statsRun
  | clearRun (r : ClearResult)
  | unknownAction
deriving DecidableEq

/-- The `__main__` block of `db_utils.py`: `sys.argv` (script name first)
is inspected; fewer than two entries prints usage and exits 1; otherwise
`sys.argv[1].lower()` selects the action, every further argument being
ignored.  The `clear` path always calls `clear_database()` with its
default `confirm=True`. -/
def dbUtilsMain (argv : List (List Char)) (tableExists : Bool)
    (answer : List Char) : CliAction :=
  match argv with
  | _script :: action :: _rest =>
      let a := toLowerChars action
      if a = "stats".toList then .statsRun
      else if a = "clear".toList then .clearRun (clear_database tableExists true answer)
      else .unknownAction
  | _ => .usageExit

/-- Test fixture: a 2500-character page of the letter `a` — no paragraph
breaks, no sentence terminators, no whitespace. -/
def allA : List Char := List.replicate 2500 'a'

/-! ### Properties of `strip` -/

theorem head?_dropWhile (p : α → Bool) (l : List α) :
    ∀ a, (l.dropWhile p).head? = some a → p a = false := by
  induction l with
  | nil => intro a h; simp [List.dropWhile] at h
  | cons c t ih =>
      intro a h
      rw [List.dropWhile_cons] at h
      by_cases hc : p c
      · simp [hc] at h; exact ih a h
      · simp [hc] at h; simp [← h]; exact Bool.eq_false_iff.mpr hc

theorem dropWhile_eq_self_of_head (p : α → Bool) (l : List α)
    (h : ∀ a, l.head? = some a → p a = false) : l.dropWhile p = l := by
  cases l with
  | nil => rfl
  | cons c t =>
      rw [List.dropWhile_cons]
      simp [h c rfl]

theorem head?_append_left {l t : List α} (h : l ≠ []) : (l ++ t).head? = l.head? := by
  cases l with
  | nil => exact absurd rfl h
  | cons c r => rfl

theorem strip_decomp (l : List Char) :
    ∃ t, (l.dropWhile isWS) = strip l ++ t := by
  refine ⟨(((l.dropWhile isWS).reverse).takeWhile isWS).reverse, ?_⟩
  unfold strip
  have h := List.takeWhile_append_dropWhile isWS (l.dropWhile isWS).reverse
  calc l.dropWhile isWS
      = ((l.dropWhile isWS).reverse).reverse := by rw [List.reverse_reverse]
    _ = (((l.dropWhile isWS).reverse.takeWhile isWS) ++
          ((l.dropWhile isWS).reverse.dropWhile isWS)).reverse := by rw [h]
    _ = _ := by rw [List.reverse_append]

theorem strip_head (l : List Char) :
    ∀ a, (strip l).head? = some a → isWS a = false := by
  intro a h
  obtain ⟨t, ht⟩ := strip_decomp l
  have hne : strip l ≠ [] := by
    intro hc; rw [hc] at h; simp at h
  have : (l.dropWhile isWS).head? = some a := by
    rw [ht, head?_append_left hne, h]
  exact head?_dropWhile isWS l a this

theorem strip_getLast (l : List Char) :
    ∀ a, (strip l).getLast? = some a → isWS a = false := by
  intro a h
  unfold strip at h
  rw [List.getLast?_reverse] at h
  exact head?_dropWhile isWS (l.dropWhile isWS).reverse a h

theorem strip_eq_self (l : List Char)
    (h1 : ∀ a, l.head? = some a → isWS a = false)
    (h2 : ∀ a, l.getLast? = some a → isWS a = false) : strip l = l := by
  unfold strip
  rw [dropWhile_eq_self_of_head isWS l h1]
  have : l.reverse.dropWhile isWS = l.reverse := by
    apply dropWhile_eq_self_of_head
    intro a ha
    rw [List.head?_reverse] at ha
    exact h2 a ha
  rw [this, List.reverse_reverse]

theorem strip_idem (l : List Char) : strip (strip l) = strip l := by
  by_cases h : strip l = []
  · rw [h]; rfl
  · exact strip_eq_self (strip l) (strip_head l) (strip_getLast l)

theorem strip_strip_ne_nil {l : List Char} (h : strip l ≠ []) :
    strip (strip l) ≠ [] := by
  rw [strip_idem]; exact h

theorem dropWhile_replicate_of_false {c : Char} (h : isWS c = false) (n : Nat) :
    (List.replicate n c).dropWhile isWS = List.replicate n c := by
  cases n with
  | zero => rfl
  | succ m => rw [List.replicate_succ, List.dropWhile_cons]; simp [h]

theorem strip_replicate {c : Char} (h : isWS c = false) (n : Nat) :
    strip (List.replicate n c) = List.replicate n c := by
  unfold strip
  rw [dropWhile_replicate_of_false h, List.reverse_replicate,
    dropWhile_replicate_of_false h, List.reverse_replicate]

/-! ### Properties of `rfind` on uniform texts -/

theorem matchAt_replicate {n : Nat} {c : Char} {pat : List Char} {i : Nat}
    (h : matchAt (List.replicate n c) pat i = true) :
    pat = List.replicate pat.length c := by
  unfold matchAt at h
  rw [decide_eq_true_iff] at h
  rw [List.drop_replicate, List.take_replicate] at h
  rw [← h]
  congr 1
  rw [← h]
  simp

theorem rfindGo_none {l pat : List Char} (a : Nat)
    (h : ∀ i, matchAt l pat i = false) : ∀ k, rfindGo l pat a k = none := by
  intro k
  induction k with
  | zero => rfl
  | succ m ih => unfold rfindGo; simp [h (a + m)]; exact ih

theorem rfind_replicate_none {n : Nat} {c : Char} {pat : List Char}
    (hpat : pat ≠ List.replicate pat.length c) (a b : Nat) :
    rfind (List.replicate n c) pat a b = none := by
  unfold rfind
  apply rfindGo_none
  intro i
  by_cases h : matchAt (List.replicate n c) pat i = true
  · exact absurd (matchAt_replicate h) hpat
  · exact Bool.eq_false_iff.mpr h

theorem sentenceFold_none {text : List Char} {a b : Nat}
    (h : ∀ sep ∈ seps, rfind text sep a b = none) :
    sentenceFold text a b seps none = none := by
  have go : ∀ (L : List (List Char)), (∀ sep ∈ L, rfind text sep a b = none) →
      sentenceFold text a b L none = none := by
    intro L
    induction L with
    | nil => intro _; rfl
    | cons s rest ih =>
        intro hL
        unfold sentenceFold
        rw [hL s (by simp)]
        exact ih (fun q hq => hL q (by simp [hq]))
  exact go seps h

/-! ### The splitting loop: termination and fuel adequacy -/

theorem nextStart_gt (text : List Char) (cs ov s : Nat) :
    s < nextStart text cs ov s :=
  lt_of_lt_of_le (Nat.lt_succ_self s) (le_max_left _ _)

theorem splitGo_stop {text : List Char} {cs ov : Nat} {pn : Int} {s : Nat}
    (h : text.length ≤ s) : ∀ f, splitGo text cs ov pn f s = [] := by
  intro f
  cases f with
  | zero => rfl
  | succ m => unfold splitGo; simp [Nat.not_lt.mpr h]

theorem splitGo_fuel {text : List Char} {cs ov : Nat} {pn : Int} :
    ∀ f1 s f2, text.length - s ≤ f1 → text.length - s ≤ f2 →
      splitGo text cs ov pn f1 s = splitGo text cs ov pn f2 s := by
  intro f1
  induction f1 with
  | zero =>
      intro s f2 h1 _
      have hs : text.length ≤ s := Nat.le_of_sub_eq_zero (Nat.le_zero.mp h1)
      rw [splitGo_stop hs, splitGo_stop hs]
  | succ m ih =>
      intro s f2 h1 h2
      by_cases hs : s < text.length
      · have hf2 : 0 < f2 := by omega
        obtain ⟨g, rfl⟩ := Nat.exists_eq_succ_of_ne_zero (Nat.pos_iff_ne_zero.mp hf2)
        unfold splitGo
        simp only [hs, if_true]
        congr 1
        apply ih
        · have := nextStart_gt text cs ov s; omega
        · have := nextStart_gt text cs ov s; omega
      · rw [splitGo_stop (Nat.not_lt.mp hs), splitGo_stop (Nat.not_lt.mp hs)]

/-! ### Shape of the chunks emitted by the splitting loop -/

theorem splitGo_mem {text : List Char} {cs ov : Nat} {pn : Int} :
    ∀ f s c, c ∈ splitGo text cs ov pn f s →
      c.metadata = ⟨[pn], pn⟩ ∧ strip c.text ≠ [] := by
  intro f
  induction f with
  | zero => intro s c h; simp [splitGo] at h
  | succ m ih =>
      intro s c h
      unfold splitGo at h
      by_cases hs : s < text.length
      · simp only [hs, if_true, List.mem_append] at h
        rcases h with h | h
        · by_cases hp : strip (slice text s (adjustEnd text cs s)) = []
          · simp [hp] at h
          · simp [hp] at h
            subst h
            exact ⟨rfl, strip_strip_ne_nil hp⟩
        · exact ih _ c h
      · simp [hs] at h

theorem chunkPage_mem {cs ov i : Nat} {p : PageRec} {c : Chunk}
    (h : c ∈ chunkPage cs ov i p) :
    c.metadata = ⟨[p.page_number.getD ((i : Int) + 1)], p.page_number.getD ((i : Int) + 1)⟩ ∧
      strip c.text ≠ [] := by
  unfold chunkPage at h
  by_cases h1 : strip (p.text.getD []) = []
  · simp [h1] at h
  · by_cases h2 : (p.text.getD []).length ≤ cs
    · simp [h1, h2] at h
      subst h
      exact ⟨rfl, h1⟩
    · simp [h1, h2] at h
      exact splitGo_mem _ _ c h

theorem chunkPages_mem {cs ov : Nat} :
    ∀ (i : Nat) (ps : List PageRec) (c : Chunk), c ∈ chunkPages cs ov i ps →
      ∃ k p, ps.get? k = some p ∧ c ∈ chunkPage cs ov (i + k) p := by
  intro i ps
  induction ps generalizing i with
  | nil => intro c h; simp [chunkPages] at h
  | cons q rest ih =>
      intro c h
      unfold chunkPages at h
      rw [List.mem_append] at h
      rcases h with h | h
      · exact ⟨0, q, rfl, by simpa using h⟩
      · obtain ⟨k, p, hk, hc⟩ := ih (i + 1) c h
        exact ⟨k + 1, p, by simpa using hk, by
          have : i + 1 + k = i + (k + 1) := by omega
          rw [← this]; exact hc⟩

theorem chunk_text_mem {cs ov : Nat} {pages : List PageRec} {c : Chunk}
    (h : c ∈ chunk_text pages cs ov) :
    ∃ k p, pages.get? k = some p ∧ c ∈ chunkPage cs ov k p := by
  obtain ⟨k, p, hk, hc⟩ := chunkPages_mem 0 pages c h
  exact ⟨k, p, hk, by simpa using hc⟩

/-! ### The break-free 2500-character page -/

theorem allA_length : allA.length = 2500 := by
  unfold allA; rw [List.length_replicate]

theorem rfind_allA_none (pat : List Char)
    (hpat : pat ≠ List.replicate pat.length 'a') (a b : Nat) :
    rfind allA pat a b = none := by
  unfold allA
  exact rfind_replicate_none hpat a b

theorem adjustEnd_allA (s : Nat) : adjustEnd allA 1000 s = min (s + 1000) 2500 := by
  have hpar : ∀ a b, rfind allA parBreak a b = none :=
    rfind_allA_none parBreak (by decide)
  have hsent : ∀ a b, sentenceFold allA a b seps none = none := by
    intro a b
    apply sentenceFold_none
    intro sep hsep
    apply rfind_allA_none
    fin_cases hsep <;> decide
  unfold adjustEnd
  simp only [hpar, hsent, allA_length]

theorem nextStart_allA (s : Nat) :
    nextStart allA 1000 200 s = max (s + 1) (min (s + 1000) 2500 - 200) := by
  unfold nextStart
  rw [adjustEnd_allA]

/-- The explicit window list for the 2500-character break-free page. -/
def allAWindows : List (Nat × Nat) :=
  (0, 1000) :: (800, 1800) :: (1600, 2500) ::
    (List.range 200).map (fun k => (2300 + k, 2500))

theorem splitWindowsGo_allA_step {f : Nat} {s e n : Nat} (hs : s < 2500)
    (he : min (s + 1000) 2500 = e) (hn : max (s + 1) (e - 200) = n) :
    splitWindowsGo allA 1000 200 (f + 1) s =
      (s, e) :: splitWindowsGo allA 1000 200 f n := by
  have he2 : adjustEnd allA 1000 s = e := by rw [adjustEnd_allA, he]
  have hn2 : nextStart allA 1000 200 s = n := by
    rw [nextStart_allA, he, hn]
  have hs2 : s < allA.length := by rw [allA_length]; exact hs
  conv_lhs => rw [splitWindowsGo]
  simp only [hs2, if_true, he2, hn2]

theorem splitWindowsGo_allA_tail :
    ∀ f s, 2300 ≤ s → s ≤ 2500 → 2500 - s ≤ f →
      splitWindowsGo allA 1000 200 f s =
        (List.range (2500 - s)).map (fun k => (s + k, 2500)) := by
  intro f
  induction f with
  | zero =>
      intro s _ _ h3
      have : s = 2500 := by omega
      subst this
      simp [splitWindowsGo]
  | succ m ih =>
      intro s h1 h2 h3
      by_cases hs : s < 2500
      · rw [splitWindowsGo_allA_step (f := m) (e := 2500) (n := s + 1) hs
          (by omega) (by omega),
          ih (s + 1) (by omega) (by omega) (by omega)]
        have hrange : 2500 - s = (2500 - (s + 1)) + 1 := by omega
        rw [hrange, List.range_succ_eq_map]
        rw [List.map_cons, List.map_map]
        refine congrArg₂ _ (by norm_num) ?_
        apply List.map_congr_left
        intro k _
        have hsk : s + Nat.succ k = s + 1 + k := by omega
        simp only [Function.comp_apply, hsk]
      · have hse : s = 2500 := by omega
        subst hse
        have hz : (2500 : Nat) - 2500 = 0 := by norm_num
        rw [hz]
        simp [splitWindowsGo, allA_length]

theorem splitWindowsGo_allA :
    splitWindowsGo allA 1000 200 2500 0 = allAWindows := by
  have s0 := splitWindowsGo_allA_step (f := 2499) (s := 0) (e := 1000) (n := 800)
    (by omega) (by omega) (by omega)
  have s1 := splitWindowsGo_allA_step (f := 2498) (s := 800) (e := 1800) (n := 1600)
    (by omega) (by omega) (by omega)
  have s2 := splitWindowsGo_allA_step (f := 2497) (s := 1600) (e := 2500) (n := 2300)
    (by omega) (by omega) (by omega)
  have s3 : splitWindowsGo allA 1000 200 2497 2300 =
      (List.range 200).map (fun k => (2300 + k, 2500)) := by
    have := splitWindowsGo_allA_tail 2497 2300 (by omega) (by omega) (by omega)
    simpa using this
  show splitWindowsGo allA 1000 200 (2499 + 1) 0 = allAWindows
  rw [s0]
  rw [show (2499 : Nat) = 2498 + 1 from rfl, s1]
  rw [show (2498 : Nat) = 2497 + 1 from rfl, s2]
  rw [s3]
  rfl

theorem splitGo_eq_windows (text : List Char) (cs ov : Nat) (pn : Int) :
    ∀ f s, splitGo text cs ov pn f s =
      ((splitWindowsGo text cs ov f s).map (fun w =>
        let piece := strip (slice text w.1 w.2)
        if piece = [] then ([] : List Chunk) else [⟨piece, ⟨[pn], pn⟩⟩])).flatten := by
  intro f
  induction f with
  | zero => intro s; rfl
  | succ m ih =>
      intro s
      unfold splitGo splitWindowsGo
      by_cases hs : s < text.length
      · simp only [hs, if_true, List.map_cons, List.flatten_cons]
        rw [ih]
      · simp [hs]

theorem flatten_map_length_one {α β : Type} (g : α → List β) :
    ∀ (ws : List α), (∀ w ∈ ws, (g w).length = 1) →
      ((ws.map g).flatten).length = ws.length := by
  intro ws
  induction ws with
  | nil => intro _; rfl
  | cons w rest ih =>
      intro h
      simp only [List.map_cons, List.flatten_cons, List.length_append,
        List.length_cons]
      rw [h w (by simp), ih (fun q hq => h q (by simp [hq]))]
      omega

theorem allAWindows_piece : ∀ w ∈ allAWindows,
    strip (slice allA w.1 w.2) = List.replicate (w.2 - w.1) 'a' ∧ w.1 < w.2 ∧ w.2 ≤ 2500 := by
  intro w hw
  have hform : ∀ (a b : Nat), b ≤ 2500 →
      strip (slice allA a b) = List.replicate (b - a) 'a' := by
    intro a b hb
    unfold allA slice
    rw [List.take_replicate, List.drop_replicate]
    have : min b 2500 = b := by omega
    rw [this, strip_replicate (by decide)]
  unfold allAWindows at hw
  simp only [List.mem_cons, List.mem_map, List.mem_range] at hw
  rcases hw with rfl | rfl | rfl | ⟨k, hk, rfl⟩
  · exact ⟨hform 0 1000 (by omega), by omega, by omega⟩
  · exact ⟨hform 800 1800 (by omega), by omega, by omega⟩
  · exact ⟨hform 1600 2500 (by omega), by omega, by omega⟩
  · exact ⟨hform (2300 + k) 2500 (by omega), by omega, by omega⟩

theorem allAWindows_length : allAWindows.length = 203 := by
  unfold allAWindows
  simp

theorem chunkPage_long {cs ov i : Nat} {p : PageRec}
    (h1 : strip (p.text.getD []) ≠ []) (h2 : ¬ (p.text.getD []).length ≤ cs) :
    chunkPage cs ov i p =
      splitGo (p.text.getD []) cs ov (p.page_number.getD ((i : Int) + 1))
        (p.text.getD []).length 0 := by
  unfold chunkPage
  simp only [h1, h2, if_false, ite_false]

theorem strip_allA_ne_nil : strip allA ≠ [] := by
  unfold allA
  rw [strip_replicate (by decide)]
  intro h
  have h2 := congrArg List.length h
  rw [List.length_replicate] at h2
  exact absurd h2 (by norm_num)

theorem chunk_text_allA_eq_splitGo :
    chunk_text [⟨some allA, some 1⟩] 1000 200 = splitGo allA 1000 200 1 2500 0 := by
  have h2 : ¬ (allA.length ≤ 1000) := by rw [allA_length]; omega
  show chunkPage 1000 200 0 ⟨some allA, some 1⟩ ++ chunkPages 1000 200 1 [] =
    splitGo allA 1000 200 1 2500 0
  rw [chunkPage_long (p := ⟨some allA, some 1⟩) strip_allA_ne_nil h2]
  show splitGo allA 1000 200 1 allA.length 0 ++ [] = _
  rw [List.append_nil, allA_length]

theorem chunk_text_allA_length :
    (chunk_text [⟨some allA, some 1⟩] 1000 200).length = 203 := by
  rw [chunk_text_allA_eq_splitGo, splitGo_eq_windows, splitWindowsGo_allA]
  rw [flatten_map_length_one _ allAWindows ?_, allAWindows_length]
  intro w hw
  obtain ⟨hp, hlt, _⟩ := allAWindows_piece w hw
  simp only [hp]
  have hne : List.replicate (w.2 - w.1) 'a' ≠ [] := by
    have hz : w.2 - w.1 ≠ 0 := by omega
    simp [hz]
  simp [hne]

/-! ### The orchestrator loop -/

theorem length_setSummary : ∀ (l : List RChunk) (i : Nat) (s : List Char),
    (setSummary l i s).length = l.length := by
  intro l
  induction l with
  | nil => intro i s; rfl
  | cons c t ih =>
      intro i s
      cases i with
      | zero => rfl
      | succ j => simp [setSummary, ih]

theorem get?_setSummary_ne : ∀ (l : List RChunk) (i j : Nat) (s : List Char),
    j ≠ i → (setSummary l i s).get? j = l.get? j := by
  intro l
  induction l with
  | nil => intro i j s _; rfl
  | cons c t ih =>
      intro i j s hji
      cases i with
      | zero =>
          cases j with
          | zero => exact absurd rfl hji
          | succ m => rfl
      | succ k =>
          cases j with
          | zero => rfl
          | succ m =>
              show (setSummary t k s).get? m = t.get? m
              exact ih k m s (by omega)

theorem get?_setSummary_eq : ∀ (l : List RChunk) (i : Nat) (s : List Char),
    (setSummary l i s).get? i =
      (l.get? i).map (fun c => { c with summary := some s }) := by
  intro l
  induction l with
  | nil => intro i s; rfl
  | cons c t ih =>
      intro i s
      cases i with
      | zero => rfl
      | succ k => exact ih k s

theorem countOk_succ (summ : Nat → CallResult (List Char)) (k : Nat) :
    countOk summ (k + 1) =
      countOk summ k + (if (summ k).isOk then 1 else 0) := by
  unfold countOk
  rw [List.range_succ, List.filter_append, List.length_append]
  congr 1
  by_cases h : (summ k).isOk <;> simp [List.filter, h]

theorem countOk_pos (summ : Nat → CallResult (List Char)) {i n : Nat}
    (h : i < n) (hok : (summ i).isOk = true) : 0 < countOk summ n := by
  have hmem : i ∈ (List.range n).filter (fun j => (summ j).isOk) :=
    List.mem_filter.mpr ⟨List.mem_range.mpr h, hok⟩
  exact List.length_pos.mpr (List.ne_nil_of_mem hmem)

/-- The state after processing the first `k` chunk indices. -/
def stAt (summ : Nat → CallResult (List Char)) (chunks0 : List RChunk) (k : Nat) :
    OrchState :=
  (List.range k).foldl (stepChunk summ) ⟨chunks0, 0, []⟩

theorem stAt_zero (summ : Nat → CallResult (List Char)) (chunks0 : List RChunk) :
    stAt summ chunks0 0 = ⟨chunks0, 0, []⟩ := rfl

theorem stAt_succ (summ : Nat → CallResult (List Char)) (chunks0 : List RChunk)
    (k : Nat) :
    stAt summ chunks0 (k + 1) = stepChunk summ (stAt summ chunks0 k) k := by
  unfold stAt
  rw [List.range_succ, List.foldl_append]
  rfl

theorem processAll_eq_stAt (summ : Nat → CallResult (List Char))
    (chunks0 : List RChunk) :
    processAll summ chunks0 = stAt summ chunks0 chunks0.length := rfl

/-- Loop invariant of the summarization loop: lengths are preserved, the
success counter and the number of checkpoint writes both equal the number
of successful calls so far, every checkpoint holds the full chunk list,
chunks not yet processed are untouched, and every processed chunk carries
the summary determined by its call outcome. -/
theorem stAt_invariant (summ : Nat → CallResult (List Char))
    (chunks0 : List RChunk) : ∀ k,
    (stAt summ chunks0 k).chunks.length = chunks0.length ∧
    (stAt summ chunks0 k).successful = countOk summ k ∧
    (stAt summ chunks0 k).writes.length = countOk summ k ∧
    (∀ w ∈ (stAt summ chunks0 k).writes, w.length = chunks0.length) ∧
    (∀ j, k ≤ j → (stAt summ chunks0 k).chunks.get? j = chunks0.get? j) ∧
    (∀ j, j < k → (stAt summ chunks0 k).chunks.get? j =
      (chunks0.get? j).map (fun c => { c with summary := some (summaryOf (summ j)) })) := by
  intro k
  induction k with
  | zero =>
      refine ⟨rfl, rfl, rfl, ?_, ?_, ?_⟩
      · intro w hw; simp [stAt_zero] at hw
      · intro j _; rfl
      · intro j hj; omega
  | succ k ih =>
      obtain ⟨ih1, ih2, ih3, ih4, ih5, ih6⟩ := ih
      rw [stAt_succ]
      cases hcall : summ k with
      | ok s =>
          have hok : (summ k).isOk = true := by rw [hcall]; rfl
          unfold stepChunk
          rw [hcall]
          simp only
          refine ⟨?_, ?_, ?_, ?_, ?_, ?_⟩
          · rw [length_setSummary, ih1]
          · rw [ih2, countOk_succ, hok]; simp
          · unfold save_partial_results
            rw [List.length_append, ih3, countOk_succ, hok]; simp
          · intro w hw
            unfold save_partial_results at hw
            rw [List.mem_append] at hw
            rcases hw with hw | hw
            · exact ih4 w hw
            · simp at hw
              rw [hw, length_setSummary, ih1]
          · intro j hj
            rw [get?_setSummary_ne _ _ _ _ (by omega)]
            exact ih5 j (by omega)
          · intro j hj
            by_cases hjk : j = k
            · subst hjk
              rw [get?_setSummary_eq, ih5 j (le_refl j)]
              have : summaryOf (summ j) = s := by rw [hcall]; rfl
              rw [this]
            · rw [get?_setSummary_ne _ _ _ _ hjk]
              exact ih6 j (by omega)
      | err e =>
          have hok : (summ k).isOk = false := by rw [hcall]; rfl
          unfold stepChunk
          rw [hcall]
          simp only
          refine ⟨?_, ?_, ?_, ?_, ?_, ?_⟩
          · rw [length_setSummary, ih1]
          · rw [ih2, countOk_succ, hok]; simp
          · rw [ih3, countOk_succ, hok]; simp
          · exact ih4
          · intro j hj
            rw [get?_setSummary_ne _ _ _ _ (by omega)]
            exact ih5 j (by omega)
          · intro j hj
            by_cases hjk : j = k
            · subst hjk
              rw [get?_setSummary_eq, ih5 j (le_refl j)]
              have : summaryOf (summ j) = errStr e := by rw [hcall]; rfl
              rw [this]
            · rw [get?_setSummary_ne _ _ _ _ hjk]
              exact ih6 j (by omega)

theorem getLast?_of_ne_nil {α : Type} : ∀ (l : List α), l ≠ [] →
    ∃ w, l.getLast? = some w ∧ w ∈ l := by
  intro l
  induction l with
  | nil => intro h; exact absurd rfl h
  | cons c t ih =>
      intro _
      cases ht : t with
      | nil => exact ⟨c, rfl, by simp⟩
      | cons d r =>
          obtain ⟨w, hw, hmem⟩ := ih (by simp [ht])
          rw [ht] at hw hmem
          refine ⟨w, ?_, by simp [hmem]⟩
          rw [List.getLast?_cons_cons]
          exact hw

/-! ### The retry loop on five consecutive throttling errors -/

theorem summarize_throttle_five (oracle : Nat → CallResult (List Char))
    (e0 e1 e2 e3 e4 : List Char)
    (h0 : oracle 0 = .err e0) (t0 : isThrottling e0 = true)
    (h1 : oracle 1 = .err e1) (t1 : isThrottling e1 = true)
    (h2 : oracle 2 = .err e2) (t2 : isThrottling e2 = true)
    (h3 : oracle 3 = .err e3) (t3 : isThrottling e3 = true)
    (h4 : oracle 4 = .err e4) :
    summarize_with_claude oracle 5 = (SumOutcome.raised e4, [4, 8, 16, 32]) := by
  have s4 : summarizeGo oracle 5 4 1 = (SumOutcome.raised e4, []) := by
    unfold summarizeGo
    rw [h4]
    norm_num
  have s3 : summarizeGo oracle 5 3 2 = (SumOutcome.raised e4, [32]) := by
    unfold summarizeGo
    rw [h3]
    norm_num [t3, s4]
  have s2 : summarizeGo oracle 5 2 3 = (SumOutcome.raised e4, [16, 32]) := by
    unfold summarizeGo
    rw [h2]
    norm_num [t2, s3]
  have s1 : summarizeGo oracle 5 1 4 = (SumOutcome.raised e4, [8, 16, 32]) := by
    unfold summarizeGo
    rw [h1]
    norm_num [t1, s2]
  show summarizeGo oracle 5 0 5 = _
  unfold summarizeGo
  rw [h0]
  norm_num [t0, s1]

/-! ## Claim theorems -/

/-- C1 (counterexample): the claim "a single 2500-character page with no
paragraph breaks or sentence terminators yields exactly 3 chunks at
`target_size=1000`, `overlap=200`" is false: the chunker emits 203 chunks
on that input, because the advance rule re-enters the tail of the text
after the window end reaches the text length. -/
theorem claim_C1_counterexample :
    ¬ ((chunk_text [⟨some (List.replicate 2500 'a'), some 1⟩] 1000 200).length = 3) := by
  have h := chunk_text_allA_length
  unfold allA at h
  intro hc
  rw [hc] at h
  exact absurd h (by norm_num)

/-- C1 (amended): on a single page of 2500 non-break, non-whitespace
characters with `target_size=1000` and `overlap=200`, the chunker emits
exactly 203 chunks; the windows carved are `[0,1000)`, `[800,1800)` (the
second chunk's window starts at offset 800 = 1000-200), `[1600,2500)`,
each cut at the hard `min(start+target_size, length)` boundary, followed
by 200 overlap-induced suffix windows `[2300+k, 2500)` for `k = 0..199`. -/
theorem claim_C1_amended :
    (chunk_text [⟨some (List.replicate 2500 'a'), some 1⟩] 1000 200).length = 203 ∧
    splitWindowsGo (List.replicate 2500 'a') 1000 200 2500 0 =
      (0, 1000) :: (800, 1800) :: (1600, 2500) ::
        (List.range 200).map (fun k => (2300 + k, 2500)) := by
  constructor
  · have h := chunk_text_allA_length
    unfold allA at h
    exact h
  · have h := splitWindowsGo_allA
    unfold allA allAWindows at h
    exact h

/-- C2 (counterexample): the claim "the checkpoint file is written once
before any summarization begins and re-written after every chunk,
whether it succeeded or failed" is false: on a one-chunk document whose
only summarization call fails, the orchestrator performs zero checkpoint
writes (no initial write, no write after the failed chunk). -/
theorem claim_C2_counterexample :
    (processAll (fun _ => CallResult.err ['U'])
      (initRecord (CallResult.ok [['a']]))).writes = [] ∧
    (initRecord (CallResult.ok [['a']])).length = 1 := by
  decide

/-- C2 (amended): the checkpoint file is written only after successfully
summarized chunks — exactly one write per success, no write before the
loop and no write after a failed chunk, so the number of writes always
equals the success counter — and every write persists the full record
(a snapshot containing all chunks). -/
theorem claim_C2_amended :
    ∀ (summ : Nat → CallResult (List Char)) (chunks0 : List RChunk),
    (processAll summ chunks0).writes.length = (processAll summ chunks0).successful ∧
    ∀ w ∈ (processAll summ chunks0).writes, w.length = chunks0.length := by
  intro summ chunks0
  obtain ⟨-, h2, h3, h4, -, -⟩ := stAt_invariant summ chunks0 chunks0.length
  rw [processAll_eq_stAt]
  exact ⟨by rw [h3, ← h2], h4⟩

/-- C2 (amended, witness): the amended claim instantiated on a concrete
two-chunk run whose first call succeeds and second fails. -/
theorem claim_C2_amended_witness :
    (processAll (fun i => if i = 0 then CallResult.ok ['S'] else CallResult.err ['U'])
        (initRecord (CallResult.ok [['a'], ['b']]))).writes.length =
      (processAll (fun i => if i = 0 then CallResult.ok ['S'] else CallResult.err ['U'])
        (initRecord (CallResult.ok [['a'], ['b']]))).successful ∧
    ∀ w ∈ (processAll (fun i => if i = 0 then CallResult.ok ['S'] else CallResult.err ['U'])
        (initRecord (CallResult.ok [['a'], ['b']]))).writes,
      w.length = (initRecord (CallResult.ok [['a'], ['b']])).length :=
  claim_C2_amended _ _

/-- C3 (counterexample): the claim "a run in which one or more chunks'
summarization raises never itself raises" is false: on a one-chunk
document whose only summarization call fails, no checkpoint file is ever
written, so the final verification step's `open` raises a
file-not-found error that propagates out of the run. -/
theorem claim_C3_counterexample :
    process_stock_report (CallResult.ok [['a']]) (fun _ => CallResult.err ['U']) =
      RunResult.raises fnfMsg ∧
    (initRecord (CallResult.ok [['a']])).length = 1 := by
  decide

/-- C3 (amended): provided at least one chunk's summarization succeeds,
a run with failing chunks never raises: every chunk ends with a summary
determined by its call outcome (failed chunks get an error-describing
string `"Error: " + message`), the success counter equals the number of
successful chunks, and the persisted file contains all chunks.  (When
every chunk fails the run raises at final verification, since no
checkpoint was ever written.) -/
theorem claim_C3_amended :
    ∀ (docResult : CallResult (List (List Char))) (summ : Nat → CallResult (List Char)),
    (∃ i, i < (initRecord docResult).length ∧ (summ i).isOk = true) →
    ∃ out, process_stock_report docResult summ = RunResult.ok out ∧
      out.successful = countOk summ (initRecord docResult).length ∧
      out.file.length = (initRecord docResult).length ∧
      out.record.length = (initRecord docResult).length ∧
      (∀ j, j < (initRecord docResult).length →
        out.record.get? j = ((initRecord docResult).get? j).map
          (fun c => { c with summary := some (summaryOf (summ j)) })) := by
  intro docResult summ h
  obtain ⟨i, hi, hok⟩ := h
  obtain ⟨h1, h2, h3, h4, -, h6⟩ :=
    stAt_invariant summ (initRecord docResult) (initRecord docResult).length
  have hpos : 0 < (stAt summ (initRecord docResult)
      (initRecord docResult).length).writes.length := by
    rw [h3]
    exact countOk_pos summ hi hok
  have hne : (stAt summ (initRecord docResult)
      (initRecord docResult).length).writes ≠ [] := by
    intro hc
    rw [hc] at hpos
    simp at hpos
  obtain ⟨w, hw, hwmem⟩ := getLast?_of_ne_nil _ hne
  refine ⟨⟨(stAt summ (initRecord docResult) (initRecord docResult).length).successful,
           (stAt summ (initRecord docResult) (initRecord docResult).length).chunks, w⟩,
          ?_, h2, h4 w hwmem, h1, fun j hj => h6 j hj⟩
  unfold process_stock_report
  dsimp only
  rw [processAll_eq_stAt, hw]

/-- C3 (amended, witness): the amended claim instantiated on a concrete
two-chunk run whose first call succeeds and second fails. -/
theorem claim_C3_amended_witness :
    ∃ out, process_stock_report (CallResult.ok [['a'], ['b']])
        (fun i => if i = 0 then CallResult.ok ['S'] else CallResult.err ['U']) =
        RunResult.ok out ∧
      out.successful = countOk
        (fun i => if i = 0 then CallResult.ok ['S'] else CallResult.err ['U'])
        (initRecord (CallResult.ok [['a'], ['b']])).length ∧
      out.file.length = (initRecord (CallResult.ok [['a'], ['b']])).length ∧
      out.record.length = (initRecord (CallResult.ok [['a'], ['b']])).length ∧
      (∀ j, j < (initRecord (CallResult.ok [['a'], ['b']])).length →
        out.record.get? j = ((initRecord (CallResult.ok [['a'], ['b']])).get? j).map
          (fun c => { c with summary := some (summaryOf
            ((fun i => if i = 0 then CallResult.ok ['S'] else CallResult.err ['U']) j)) })) :=
  claim_C3_amended _ _ ⟨0, by decide, rfl⟩

/-- C4 (counterexample): the claim "when the source document cannot be
read, the extraction error is fatal and propagates to the top-level
caller before any chunking occurs" is false: `extract_pdf` catches the
exception and returns normally with an empty page list, and the error
the run eventually raises is the final verification's file-not-found
error, not the extraction error. -/
theorem claim_C4_counterexample :
    extract_pdf (CallResult.err "cannot open file".toList) = [] ∧
    process_stock_report (CallResult.err "cannot open file".toList)
      (fun _ => CallResult.ok ['S']) = RunResult.raises fnfMsg ∧
    fnfMsg ≠ "cannot open file".toList :=
  ⟨rfl, rfl, by decide⟩

/-- C4 (amended): when the source document cannot be read or parsed, the
extraction error is caught inside `extract_pdf`, which returns an empty
page list; the run proceeds through chunking (yielding zero chunks) and
aborts only at the final verification step, raising a file-not-found
error because no checkpoint file was ever written. -/
theorem claim_C4_amended :
    ∀ (m : List Char) (summ : Nat → CallResult (List Char)),
    extract_pdf (CallResult.err m) = [] ∧
    chunk_text (extract_pdf (CallResult.err m)) 1000 200 = [] ∧
    process_stock_report (CallResult.err m) summ = RunResult.raises fnfMsg :=
  fun _ _ => ⟨rfl, rfl, rfl⟩

/-- C5: when every attempt's remote call fails with a throttling error
and `max_retries = 5`, `summarize_with_claude` raises the 5th attempt's
error as a terminal failure, having slept exactly 4 times, for 4, 8, 16
and 32 seconds (`2^(attempt_index+2)`), with no sleep after the final
attempt. -/
theorem claim_C5 :
    ∀ (oracle : Nat → CallResult (List Char)),
    (∀ n, n < 5 → ∃ e, oracle n = CallResult.err e ∧ isThrottling e = true) →
    ∃ e, oracle 4 = CallResult.err e ∧
      summarize_with_claude oracle 5 = (SumOutcome.raised e, [4, 8, 16, 32]) := by
  intro oracle h
  obtain ⟨e0, h0, t0⟩ := h 0 (by omega)
  obtain ⟨e1, h1, t1⟩ := h 1 (by omega)
  obtain ⟨e2, h2, t2⟩ := h 2 (by omega)
  obtain ⟨e3, h3, t3⟩ := h 3 (by omega)
  obtain ⟨e4, h4, _⟩ := h 4 (by omega)
  exact ⟨e4, h4, summarize_throttle_five oracle e0 e1 e2 e3 e4
    h0 t0 h1 t1 h2 t2 h3 t3 h4⟩

/-- C5 (witness): the claim instantiated on the oracle that always fails
with a `ThrottlingException` message. -/
theorem claim_C5_witness :
    ∃ e, (fun (_ : Nat) => CallResult.err (α := List Char)
        "ThrottlingException: rate exceeded".toList) 4 = CallResult.err e ∧
      summarize_with_claude
        (fun _ => CallResult.err "ThrottlingException: rate exceeded".toList) 5 =
        (SumOutcome.raised e, [4, 8, 16, 32]) :=
  claim_C5 _ (fun n _ => ⟨_, rfl, by decide⟩)

/-- C6 (counterexample): the claim "a non-whitespace page with text
length ≤ target_size yields one chunk whose text is the page's full
TRIMMED text" is false: the short-page branch stores the text verbatim,
so the page `" a"` yields a chunk whose text is `" a"`, not the trimmed
`"a"`. -/
theorem claim_C6_counterexample :
    chunk_text [⟨some [' ', 'a'], some 1⟩] 1000 200 =
      [⟨[' ', 'a'], ⟨[1], 1⟩⟩] ∧
    strip [' ', 'a'] ≠ [' ', 'a'] := by
  decide

/-- C6 (amended): for every page whose text is not whitespace-only and
whose text length is ≤ target_size, the chunker emits exactly one chunk
for that page, and that chunk's text is the page's full text verbatim
(untrimmed; it is non-empty after trimming), tagged with the page's
number. -/
theorem claim_C6_amended :
    ∀ (cs ov i : Nat) (p : PageRec),
    strip (p.text.getD []) ≠ [] → (p.text.getD []).length ≤ cs →
    chunkPage cs ov i p =
      [⟨p.text.getD [],
        ⟨[p.page_number.getD ((i : Int) + 1)], p.page_number.getD ((i : Int) + 1)⟩⟩] := by
  intro cs ov i p hne hle
  unfold chunkPage
  simp only [hne, hle, if_false, if_true, ite_false, ite_true]

/-- C6 (amended, witness): the amended claim instantiated on the page
`" a"` with page number 2 and `target_size = 5`. -/
theorem claim_C6_amended_witness :
    strip ((⟨some [' ', 'a'], some 2⟩ : PageRec).text.getD []) ≠ [] ∧
    ((⟨some [' ', 'a'], some 2⟩ : PageRec).text.getD []).length ≤ 5 ∧
    chunkPage 5 1 0 ⟨some [' ', 'a'], some 2⟩ =
      [⟨(⟨some [' ', 'a'], some 2⟩ : PageRec).text.getD [],
        ⟨[(⟨some [' ', 'a'], some 2⟩ : PageRec).page_number.getD ((0 : Int) + 1)],
         (⟨some [' ', 'a'], some 2⟩ : PageRec).page_number.getD ((0 : Int) + 1)⟩⟩] :=
  ⟨by decide, by decide, claim_C6_amended 5 1 0 _ (by decide) (by decide)⟩

/-- C7: in the splitting loop, the start position strictly increases on
every iteration (`start < nextStart`) for every text, target size,
overlap and start — including `overlap ≥ target_size - 1` — so the loop
terminates on every finite text: its result is already stable at fuel
`length - start`. -/
theorem claim_C7 :
    ∀ (text : List Char) (cs ov s : Nat) (pn : Int) (f1 f2 : Nat),
    s < nextStart text cs ov s ∧
    (text.length - s ≤ f1 → text.length - s ≤ f2 →
      splitGo text cs ov pn f1 s = splitGo text cs ov pn f2 s) :=
  fun text cs ov s pn f1 f2 =>
    ⟨nextStart_gt text cs ov s, fun hf1 hf2 => splitGo_fuel f1 s f2 hf1 hf2⟩

/-- C7 (witness): strict progress and fuel-stability instantiated on a
3-character text with `target_size = 2`, `overlap = 5 ≥ target_size - 1`. -/
theorem claim_C7_witness :
    0 < nextStart ['x', 'y', 'z'] 2 5 0 ∧
    splitGo ['x', 'y', 'z'] 2 5 1 3 0 = splitGo ['x', 'y', 'z'] 2 5 1 10 0 := by
  obtain ⟨g1, g2⟩ := claim_C7 ['x', 'y', 'z'] 2 5 0 1 3 10
  exact ⟨g1, g2 (by decide) (by decide)⟩

/-- C8: every chunk emitted by the chunker, for every input page list and
every size parameters, has text that is non-empty after trimming, and a
`metadata.pages` sequence of length ≥ 1 whose every element equals
`metadata.source_page`, which is the originating page record's
`page_number` (defaulting to index+1 when the key is missing). -/
theorem claim_C8 :
    ∀ (cs ov : Nat) (pages : List PageRec) (c : Chunk),
    c ∈ chunk_text pages cs ov →
    strip c.text ≠ [] ∧
    1 ≤ c.metadata.pages.length ∧
    (∀ q ∈ c.metadata.pages, q = c.metadata.source_page) ∧
    (∃ k p, pages.get? k = some p ∧
      c.metadata.pages = [p.page_number.getD ((k : Int) + 1)] ∧
      c.metadata.source_page = p.page_number.getD ((k : Int) + 1)) := by
  intro cs ov pages c hc
  obtain ⟨k, p, hk, hp⟩ := chunk_text_mem hc
  obtain ⟨hmeta, hstrip⟩ := chunkPage_mem hp
  refine ⟨hstrip, ?_, ?_, k, p, hk, ?_, ?_⟩
  · rw [hmeta]
    exact Nat.le_refl 1
  · intro q hq
    rw [hmeta] at hq ⊢
    simp at hq
    simp [hq]
  · rw [hmeta]
  · rw [hmeta]

/-- C8 (witness): the invariant instantiated on a one-page input and the
single chunk it produces. -/
theorem claim_C8_witness :
    strip (Chunk.mk ['a'] ⟨[7], 7⟩).text ≠ [] ∧
    1 ≤ (Chunk.mk ['a'] ⟨[7], 7⟩).metadata.pages.length ∧
    (∀ q ∈ (Chunk.mk ['a'] ⟨[7], 7⟩).metadata.pages,
      q = (Chunk.mk ['a'] ⟨[7], 7⟩).metadata.source_page) ∧
    (∃ k p, ([⟨some ['a'], some 7⟩] : List PageRec).get? k = some p ∧
      (Chunk.mk ['a'] ⟨[7], 7⟩).metadata.pages = [p.page_number.getD ((k : Int) + 1)] ∧
      (Chunk.mk ['a'] ⟨[7], 7⟩).metadata.source_page = p.page_number.getD ((k : Int) + 1)) :=
  claim_C8 1000 200 [⟨some ['a'], some 7⟩] ⟨['a'], ⟨[7], 7⟩⟩ (by decide)

/-- C9 (counterexample): the claim "the command-line surface provides a
non-interactive flag that bypasses the confirmation" is false: extra
command-line arguments after `clear` are ignored, so even with a
would-be `--yes` flag the utility still prompts, and an answer other
than `y` cancels the operation without dropping the table. -/
theorem claim_C9_counterexample :
    dbUtilsMain ["db_utils.py".toList, "clear".toList, "--yes".toList] true ['n'] =
      CliAction.clearRun ⟨true, false, true⟩ := by
  decide

/-- C9 (amended): the `clear` subcommand deletes the chunk store only
after an interactive yes/no confirmation: every CLI invocation reaching
`clear` prompts, and drops the table exactly when the answer lowercases
to `"y"` and the table exists.  The confirmation bypass exists only at
the function level (`clear_database` with `confirm=False`), which the
command-line surface never invokes — no flag is parsed. -/
theorem claim_C9_amended :
    (∀ (argv : List (List Char)) (te : Bool) (ans : List Char) (r : ClearResult),
      dbUtilsMain argv te ans = CliAction.clearRun r →
      r.prompted = true ∧ (r.dropped = true ↔ (toLowerChars ans = ['y'] ∧ te = true))) ∧
    (∀ (te : Bool) (ans : List Char),
      (clear_database te false ans).prompted = false ∧
      (clear_database te false ans).dropped = te) := by
  constructor
  · intro argv te ans r hr
    rcases argv with _ | ⟨a, _ | ⟨b, rest⟩⟩
    · simp [dbUtilsMain] at hr
    · simp [dbUtilsMain] at hr
    · simp only [dbUtilsMain] at hr
      split_ifs at hr
      injection hr with hr2
      subst hr2
      unfold clear_database
      rw [if_pos rfl]
      by_cases hy : toLowerChars ans = ['y']
      · rw [if_neg (by simp [hy])]
        exact ⟨rfl, by cases te <;> simp [hy]⟩
      · rw [if_pos hy]
        exact ⟨rfl, by simp [hy]⟩
  · intro te ans
    exact ⟨rfl, rfl⟩

/-- C9 (amended, witness): the amended claim instantiated on a CLI call
`clear --force` answered `y` (prompted, dropped) and on a direct
function call with `confirm=False` (no prompt, dropped). -/
theorem claim_C9_amended_witness :
    ((ClearResult.mk true true false).prompted = true ∧
      ((ClearResult.mk true true false).dropped = true ↔
        (toLowerChars ['y'] = ['y'] ∧ true = true))) ∧
    ((clear_database true false ['n']).prompted = false ∧
      (clear_database true false ['n']).dropped = true) :=
  ⟨claim_C9_amended.1 ["db_utils.py".toList, "clear".toList, "--force".toList]
      true ['y'] ⟨true, true, false⟩ (by decide),
   claim_C9_amended.2 true ['n']⟩

/-- C10: the chunker is total over records with missing dictionary keys:
a record with no `"text"` key is treated as empty text and emits no
chunk, and a record with no `"page_number"` key is assigned the page
number index+1 (1-based position); both defaults come from `dict.get`,
so no such input makes the chunker fail (the embedding is a total
function by construction). -/
theorem claim_C10 :
    ∀ (cs ov i : Nat) (p : PageRec),
    (p.text = none → chunkPage cs ov i p = []) ∧
    (p.page_number = none → ∀ c ∈ chunkPage cs ov i p,
      c.metadata.pages = [(i : Int) + 1] ∧ c.metadata.source_page = (i : Int) + 1) := by
  intro cs ov i p
  constructor
  · intro ht
    unfold chunkPage
    rw [ht]
    simp [strip]
  · intro hn c hc
    obtain ⟨hmeta, -⟩ := chunkPage_mem hc
    rw [hn] at hmeta
    simp only [Option.getD_none] at hmeta
    rw [hmeta]
    exact ⟨rfl, rfl⟩

/-- C10 (witness): the defaults instantiated on a record missing its
text (emits nothing) and a record missing its page number (tagged with
index 4 + 1). -/
theorem claim_C10_witness :
    chunkPage 9 2 4 ⟨none, some 3⟩ = [] ∧
    (∀ c ∈ chunkPage 9 2 4 ⟨some ['a'], none⟩,
      c.metadata.pages = [((4 : Nat) : Int) + 1] ∧
      c.metadata.source_page = ((4 : Nat) : Int) + 1) :=
  ⟨(claim_C10 9 2 4 ⟨none, some 3⟩).1 rfl,
   (claim_C10 9 2 4 ⟨some ['a'], none⟩).2 rfl⟩

end StockReport
